import Mathlib

/-!
Verification of `src/task1-smart-text-analyzer/text_analyzer.py`.

The Python function `analyze_text` is embedded shallowly. A Python string is a
sequence of Unicode code points, modelled as `List Nat`. The default
`str.split()` whitespace set and `str.lower()` are modelled over the ASCII
range, which covers every behaviour the specification exercises. Python's
`round(x, 2)` acts on an IEEE-754 float with round-half-to-even; the model
applies round-half-to-even to the exact rational quotient.
-/

/-- A Python string as its sequence of Unicode code points. -/
abbrev PyStr := List Nat

/-- Code points of a Lean string literal, used to write concrete inputs. -/
def toChars (s : String) : PyStr := s.data.map Char.toNat

/-- Whitespace recognised by `str.split()` with no arguments (ASCII range):
space, tab, newline, carriage return, vertical tab, form feed. -/
def isPySpace (c : Nat) : Bool :=
  c = 32 || c = 9 || c = 10 || c = 13 || c = 11 || c = 12

/-- The fixed punctuation set of `word.strip(...)` in the source:
period, comma, bang, question mark, semicolon, colon, double quote,
parentheses, square brackets, curly brackets. -/
def punctChars : PyStr := toChars ".,!?;:\"()[]\x7b\x7d"

/-- ASCII lowercasing of one code point, as `str.lower()` acts on the
inputs in scope: 65..90 map to 97..122, everything else is unchanged. -/
def lowerChar (c : Nat) : Nat := if 65 ≤ c ∧ c ≤ 90 then c + 32 else c

/-- Accumulator-passing worker for `str.split()`: `acc` holds the current
token reversed; whitespace runs separate tokens and produce no empties. -/
def pySplitAux : List Nat → List Nat → List PyStr
  | [], acc => if acc = [] then [] else [acc.reverse]
  | c :: cs, acc =>
    if isPySpace c then
      if acc = [] then pySplitAux cs [] else acc.reverse :: pySplitAux cs []
    else pySplitAux cs (c :: acc)

/-- `text.split()`: split on runs of whitespace, discarding empty pieces. -/
def pySplit (s : PyStr) : List PyStr := pySplitAux s []

/-- `word.strip(punct)`: drop characters of the set from the front, then
from the back. -/
def pyStrip (s : PyStr) : PyStr :=
  ((s.dropWhile (punctChars.contains ·)).reverse.dropWhile
    (punctChars.contains ·)).reverse

/-- The `cleaned_words` list of the source: split, strip punctuation, keep
the non-empty results, lowercase them. -/
def cleanedWords (s : PyStr) : List PyStr :=
  (pySplit s).filterMap (fun w =>
    let c := pyStrip w
    if c = [] then none else some (c.map lowerChar))

/-- Round-half-to-even of a rational to an integer, the convention of
Python's builtin `round`. -/
def roundHalfEven (q : ℚ) : ℤ :=
  if q - ⌊q⌋ < 1 / 2 then ⌊q⌋
  else if 1 / 2 < q - ⌊q⌋ then ⌊q⌋ + 1
  else if ⌊q⌋ % 2 = 0 then ⌊q⌋ else ⌊q⌋ + 1

/-- `round(q, 2)`: round to two decimal places. -/
def round2 (q : ℚ) : ℚ := (roundHalfEven (100 * q) : ℚ) / 100

/-- The dictionary returned by `analyze_text`. -/
structure AnalysisResult where
  word_count : Nat
  average_word_length : ℚ
  longest_words : List PyStr
  word_frequency : List (PyStr × Nat)
  deriving DecidableEq, Repr

/-- The two error kinds `analyze_text` can raise. -/
inductive PyError where
  | typeError : PyError
  | valueError : PyError
  deriving DecidableEq, Repr

/-- A Python value passed to `analyze_text`: a string, or any non-string
value (None, an int, an absent argument bound to a default, ...). -/
inductive PyValue where
  | str : PyStr → PyValue
  | nonStr : PyValue
  deriving DecidableEq

/-- One step of building the frequency dictionary:
`word_frequency[word] = word_frequency.get(word, 0) + 1`. An existing key
keeps its position; a new key is appended, matching insertion-ordered
Python dicts. -/
def bump : List (PyStr × Nat) → PyStr → List (PyStr × Nat)
  | [], w => [(w, 1)]
  | (k, v) :: rest, w =>
    if k = w then (k, v + 1) :: rest else (k, v) :: bump rest w

/-- The `word_frequency` loop of the source. -/
def buildFreq (ws : List PyStr) : List (PyStr × Nat) := ws.foldl bump []

/-- Worker for `list(dict.fromkeys(l))`: keep the first occurrence of each
element, drop later duplicates; `seen` holds the keys already emitted. -/
def dedupAux : List PyStr → List PyStr → List PyStr
  | [], _ => []
  | w :: ws, seen =>
    if w ∈ seen then dedupAux ws seen else w :: dedupAux ws (w :: seen)

/-- `list(dict.fromkeys(l))`: duplicates removed, first-occurrence order. -/
def pyDedup (l : List PyStr) : List PyStr := dedupAux l []

/-- `max(len(word) for word in ws)`. The source only evaluates this on the
non-empty `cleaned_words`, whose elements all have positive length, so the
`0` seed of the fold never affects the value. -/
def maxLen (ws : List PyStr) : Nat := (ws.map List.length).foldl max 0

/-- The embedded `analyze_text`. `TypeError` for a non-string; `ValueError`
when the string is empty or whitespace-only, or when no token survives
cleaning; otherwise the four statistics. -/
def analyze_text : PyValue → Except PyError AnalysisResult
  | .nonStr => .error .typeError
  | .str text =>
    if text.all isPySpace then .error .valueError
    else
      let cleaned := cleanedWords text
      if cleaned = [] then .error .valueError
      else
        let word_count := cleaned.length
        let total_length := (cleaned.map List.length).sum
        let average_word_length :=
          round2 ((total_length : ℚ) / (word_count : ℚ))
        let longest_words :=
          pyDedup (cleaned.filter (fun w => w.length = maxLen cleaned))
        .ok { word_count := word_count
              average_word_length := average_word_length
              longest_words := longest_words
              word_frequency := buildFreq cleaned }

/-- The successful outcome of `analyze_text` on a string, when there is one. -/
def analyzeOk (t : PyStr) : Option AnalysisResult :=
  (analyze_text (.str t)).toOption

/-- Placeholder result used only as a `getD` default for extractors. -/
def emptyResult : AnalysisResult :=
  { word_count := 0, average_word_length := 0
    longest_words := [], word_frequency := [] }

/-- Values of a frequency dictionary, in order. -/
def freqValues (m : List (PyStr × Nat)) : List Nat := m.map Prod.snd

/-- Keys of a frequency dictionary, in order. -/
def freqKeys (m : List (PyStr × Nat)) : List PyStr := m.map Prod.fst

/-- Total character mass recorded in a frequency dictionary: the sum over
entries of key length times count. -/
def freqWeight (m : List (PyStr × Nat)) : Nat :=
  (m.map (fun p => p.1.length * p.2)).sum

/-- `m[w]` with default 0: the count stored for key `w`. -/
def lookupFreq (m : List (PyStr × Nat)) (w : PyStr) : Nat :=
  (m.lookup w).getD 0

/-- The `word_frequency` field of the result on input `t` (empty on failure). -/
def freqOf (t : PyStr) : List (PyStr × Nat) :=
  ((analyzeOk t).getD emptyResult).word_frequency

/-- The `word_count` field of the result on input `t` (0 on failure). -/
def wcOf (t : PyStr) : Nat := ((analyzeOk t).getD emptyResult).word_count

/-- The `longest_words` field of the result on input `t` (empty on failure). -/
def longestOf (t : PyStr) : List PyStr :=
  ((analyzeOk t).getD emptyResult).longest_words

/-- The specification's description of `longest_words`: the distinct cleaned
tokens, in order of first appearance, restricted to those of maximum
length. -/
def specLongestWords (ws : List PyStr) : List PyStr :=
  (pyDedup ws).filter (fun w => w.length = maxLen ws)

/-- Concrete sample input shared by the witness theorems. -/
def sampleText : PyStr := toChars "cat dog bat"

/-- The computed result on `sampleText`. -/
def sampleResult : AnalysisResult := (analyzeOk sampleText).getD emptyResult

/-- Text of Scenario A. -/
def foxText : PyStr := toChars "The quick brown fox jumps over the lazy dog the fox"

/-! ### Lemmas about the frequency dictionary -/

theorem freqValues_bump (m : List (PyStr × Nat)) (w : PyStr) :
    (freqValues (bump m w)).sum = (freqValues m).sum + 1 := by
  induction m with
  | nil => simp [bump, freqValues]
  | cons kv rest ih =>
    obtain ⟨k, v⟩ := kv
    by_cases hk : k = w
    · simp [bump, hk, freqValues]
      omega
    · simp [bump, hk, freqValues] at ih ⊢
      omega

theorem freqValues_foldl (ws : List PyStr) (m : List (PyStr × Nat)) :
    (freqValues (ws.foldl bump m)).sum = (freqValues m).sum + ws.length := by
  induction ws generalizing m with
  | nil => simp
  | cons w ws ih =>
    simp only [List.foldl_cons, List.length_cons]
    rw [ih, freqValues_bump]
    omega

theorem freqWeight_bump (m : List (PyStr × Nat)) (w : PyStr) :
    freqWeight (bump m w) = freqWeight m + w.length := by
  induction m with
  | nil => simp [bump, freqWeight]
  | cons kv rest ih =>
    obtain ⟨k, v⟩ := kv
    by_cases hk : k = w
    · subst hk
      simp [bump, freqWeight]
      ring
    · simp [bump, hk, freqWeight] at ih ⊢
      omega

theorem freqWeight_foldl (ws : List PyStr) (m : List (PyStr × Nat)) :
    freqWeight (ws.foldl bump m) = freqWeight m + (ws.map List.length).sum := by
  induction ws generalizing m with
  | nil => simp
  | cons w ws ih =>
    simp only [List.foldl_cons, List.map_cons, List.sum_cons]
    rw [ih, freqWeight_bump]
    omega

theorem freqKeys_bump (m : List (PyStr × Nat)) (w : PyStr) :
    freqKeys (bump m w) =
      if w ∈ freqKeys m then freqKeys m else freqKeys m ++ [w] := by
  induction m with
  | nil => simp [bump, freqKeys]
  | cons kv rest ih =>
    obtain ⟨k, v⟩ := kv
    by_cases hk : k = w
    · subst hk
      simp [bump, freqKeys]
    · simp only [bump, if_neg hk, freqKeys, List.map_cons] at ih ⊢
      by_cases hw : w ∈ freqKeys rest
      · simp only [freqKeys] at hw
        simp [hw, ih, Ne.symm hk]
      · simp only [freqKeys] at hw
        simp [hw, ih, Ne.symm hk]

theorem bump_values_pos (m : List (PyStr × Nat)) (w : PyStr)
    (hm : ∀ kv ∈ m, 1 ≤ kv.2) : ∀ kv ∈ bump m w, 1 ≤ kv.2 := by
  induction m with
  | nil =>
    intro kv hkv
    simp only [bump, List.mem_singleton] at hkv
    subst hkv
    simp
  | cons kv0 rest ih =>
    obtain ⟨k, v⟩ := kv0
    intro kv hkv
    by_cases hk : k = w
    · simp only [bump, if_pos hk, List.mem_cons] at hkv
      rcases hkv with h | h
      · subst h
        simp
      · exact hm kv (List.mem_cons_of_mem _ h)
    · simp only [bump, if_neg hk, List.mem_cons] at hkv
      rcases hkv with h | h
      · subst h
        exact hm (k, v) (List.mem_cons_self _ _)
      · exact ih (fun x hx => hm x (List.mem_cons_of_mem _ hx)) kv h

theorem foldl_bump_values_pos (ws : List PyStr) (m : List (PyStr × Nat))
    (hm : ∀ kv ∈ m, 1 ≤ kv.2) : ∀ kv ∈ ws.foldl bump m, 1 ≤ kv.2 := by
  induction ws generalizing m with
  | nil => exact hm
  | cons w ws ih => exact ih (bump m w) (bump_values_pos m w hm)

/-! ### Lemmas about first-occurrence deduplication -/

theorem dedupAux_congr (l : List PyStr) (s1 s2 : List PyStr)
    (h : ∀ x, x ∈ s1 ↔ x ∈ s2) : dedupAux l s1 = dedupAux l s2 := by
  induction l generalizing s1 s2 with
  | nil => rfl
  | cons w ws ih =>
    by_cases hw : w ∈ s1
    · rw [dedupAux, if_pos hw, dedupAux, if_pos ((h w).mp hw)]
      exact ih s1 s2 h
    · rw [dedupAux, if_neg hw, dedupAux, if_neg (fun hc => hw ((h w).mpr hc))]
      refine congrArg (w :: ·) (ih _ _ fun x => ?_)
      simp [h x]

theorem mem_dedupAux (l : List PyStr) (seen : List PyStr) (x : PyStr) :
    x ∈ dedupAux l seen ↔ x ∈ l ∧ x ∉ seen := by
  induction l generalizing seen with
  | nil => simp [dedupAux]
  | cons w ws ih =>
    rw [dedupAux]
    by_cases hw : w ∈ seen
    · rw [if_pos hw, ih]
      constructor
      · rintro ⟨hx, hs⟩
        exact ⟨List.mem_cons_of_mem _ hx, hs⟩
      · rintro ⟨hx, hs⟩
        rcases List.mem_cons.mp hx with h | h
        · exact absurd hw (h ▸ hs)
        · exact ⟨h, hs⟩
    · rw [if_neg hw]
      constructor
      · intro hx
        rcases List.mem_cons.mp hx with rfl | hx2
        · exact ⟨List.mem_cons_self _ _, hw⟩
        · obtain ⟨h1, h2⟩ := (ih (w :: seen)).mp hx2
          exact ⟨List.mem_cons_of_mem _ h1,
            fun hc => h2 (List.mem_cons_of_mem _ hc)⟩
      · rintro ⟨hx, hs⟩
        rcases List.mem_cons.mp hx with rfl | hx2
        · exact List.mem_cons_self _ _
        · by_cases hxw : x = w
          · exact hxw ▸ List.mem_cons_self _ _
          · refine List.mem_cons_of_mem _ ((ih (w :: seen)).mpr ⟨hx2, ?_⟩)
            intro hc
            exact (List.mem_cons.mp hc).elim hxw hs

theorem nodup_dedupAux (l : List PyStr) (seen : List PyStr) :
    (dedupAux l seen).Nodup := by
  induction l generalizing seen with
  | nil => simp [dedupAux]
  | cons w ws ih =>
    by_cases hw : w ∈ seen
    · rw [dedupAux, if_pos hw]
      exact ih seen
    · rw [dedupAux, if_neg hw]
      refine List.nodup_cons.mpr ⟨fun hc => ?_, ih (w :: seen)⟩
      exact ((mem_dedupAux ws (w :: seen) w).mp hc).2 (List.mem_cons_self _ _)

/-! ### Shape of a successful analysis -/

theorem analyzeOk_some (t : PyStr) (r : AnalysisResult)
    (h : analyzeOk t = some r) :
    cleanedWords t ≠ [] ∧
    r.word_count = (cleanedWords t).length ∧
    r.average_word_length =
      round2 ((((cleanedWords t).map List.length).sum : ℚ) /
        (((cleanedWords t).length : Nat) : ℚ)) ∧
    r.longest_words =
      pyDedup ((cleanedWords t).filter
        (fun w => w.length = maxLen (cleanedWords t))) ∧
    r.word_frequency = buildFreq (cleanedWords t) := by
  simp only [analyzeOk, analyze_text] at h
  split_ifs at h with h1 h2
  · simp [Except.toOption] at h
  · simp [Except.toOption] at h
  · simp only [Except.toOption] at h
    cases h
    exact ⟨h2, rfl, rfl, rfl, rfl⟩

theorem all_space_cleanedWords (t : PyStr) (h : t.all isPySpace = true) :
    cleanedWords t = [] := by
  suffices hs : pySplit t = [] by
    simp [cleanedWords, hs]
  unfold pySplit
  induction t with
  | nil => rfl
  | cons c cs ih =>
    simp only [List.all_cons, Bool.and_eq_true] at h
    rw [pySplitAux, if_pos h.1, if_pos rfl]
    exact ih h.2

theorem mem_cleanedWords_ne_nil (s : PyStr) (w : PyStr)
    (hw : w ∈ cleanedWords s) : w ≠ [] := by
  unfold cleanedWords at hw
  obtain ⟨a, -, ha⟩ := List.mem_filterMap.mp hw
  by_cases hc : pyStrip a = []
  · simp [hc] at ha
  · simp only [if_neg hc] at ha
    cases ha
    simpa using hc

/-! ### Lemmas about the maximum token length -/

theorem foldl_max_le (l : List Nat) (a : Nat) :
    a ≤ l.foldl max a ∧ ∀ x ∈ l, x ≤ l.foldl max a := by
  induction l generalizing a with
  | nil => simp
  | cons y ys ih =>
    obtain ⟨h1, h2⟩ := ih (max a y)
    refine ⟨le_trans (le_max_left a y) h1, ?_⟩
    intro x hx
    rcases List.mem_cons.mp hx with rfl | hx2
    · exact le_trans (le_max_right a x) h1
    · exact h2 x hx2

theorem foldl_max_mem (l : List Nat) (a : Nat) :
    l.foldl max a = a ∨ l.foldl max a ∈ l := by
  induction l generalizing a with
  | nil => exact Or.inl rfl
  | cons y ys ih =>
    rcases ih (max a y) with h | h
    · rcases max_choice a y with hm | hm
      · exact Or.inl (by rw [List.foldl_cons, h, hm])
      · exact Or.inr (by rw [List.foldl_cons, h, hm]; exact List.mem_cons_self _ _)
    · exact Or.inr (List.mem_cons_of_mem _ h)

theorem exists_maxLen (ws : List PyStr) (hne : ws ≠ [])
    (hpos : ∀ w ∈ ws, w ≠ []) : ∃ w ∈ ws, w.length = maxLen ws := by
  rcases foldl_max_mem (ws.map List.length) 0 with h | h
  · obtain ⟨w0, hw0⟩ := List.exists_mem_of_ne_nil ws hne
    have hle : w0.length ≤ maxLen ws :=
      (foldl_max_le (ws.map List.length) 0).2 _ (List.mem_map_of_mem _ hw0)
    have hz : maxLen ws = 0 := h
    have : w0.length = 0 := by omega
    exact absurd (List.length_eq_zero.mp this) (hpos w0 hw0)
  · obtain ⟨w, hw, hlen⟩ := List.mem_map.mp h
    exact ⟨w, hw, hlen⟩

theorem le_maxLen (ws : List PyStr) (w : PyStr) (hw : w ∈ ws) :
    w.length ≤ maxLen ws :=
  (foldl_max_le (ws.map List.length) 0).2 _ (List.mem_map_of_mem _ hw)

/-! ### Commuting deduplication with the max-length filter -/

theorem dedupAux_cons_not_mem (l : List PyStr) (x : PyStr)
    (seen : List PyStr) (hx : x ∉ l) :
    dedupAux l (x :: seen) = dedupAux l seen := by
  induction l generalizing seen with
  | nil => rfl
  | cons w ws ih =>
    have hwx : ¬(w = x) := fun hc => hx (hc ▸ List.mem_cons_self _ _)
    have hxs : x ∉ ws := fun hc => hx (List.mem_cons_of_mem _ hc)
    rw [dedupAux, dedupAux]
    by_cases hw : w ∈ seen
    · rw [if_pos (List.mem_cons_of_mem _ hw), if_pos hw]
      exact ih seen hxs
    · have hw2 : w ∉ x :: seen := by
        intro hc
        exact (List.mem_cons.mp hc).elim hwx hw
      rw [if_neg hw2, if_neg hw]
      refine congrArg (w :: ·) ?_
      rw [dedupAux_congr ws (w :: x :: seen) (x :: w :: seen) (by intro y; constructor <;>
        (intro hy; simp only [List.mem_cons] at hy ⊢; tauto))]
      exact ih (w :: seen) hxs

theorem dedupAux_filter (p : PyStr → Bool) (l : List PyStr)
    (seen : List PyStr) :
    dedupAux (l.filter p) seen = (dedupAux l seen).filter p := by
  induction l generalizing seen with
  | nil => rfl
  | cons w ws ih =>
    by_cases hw : w ∈ seen
    · by_cases hp : p w
      · rw [List.filter_cons_of_pos hp, dedupAux, if_pos hw, dedupAux,
          if_pos hw, ih seen]
      · rw [List.filter_cons_of_neg hp, dedupAux, if_pos hw, ih seen]
    · by_cases hp : p w
      · rw [List.filter_cons_of_pos hp, dedupAux, if_neg hw, dedupAux,
          if_neg hw, List.filter_cons_of_pos hp, ih (w :: seen)]
      · rw [List.filter_cons_of_neg hp, dedupAux, if_neg hw,
          List.filter_cons_of_neg hp, ← ih (w :: seen)]
        have hwf : w ∉ ws.filter p := by
          intro hc
          exact absurd (List.of_mem_filter hc) hp
        rw [dedupAux_cons_not_mem (ws.filter p) w seen hwf]

/-! ### Rounding bounds -/

theorem roundHalfEven_ge_floor (q : ℚ) : ⌊q⌋ ≤ roundHalfEven q := by
  unfold roundHalfEven
  split_ifs <;> omega

theorem one_le_round2 (q : ℚ) (hq : 1 ≤ q) : 1 ≤ round2 q := by
  have h100 : (100 : ℚ) ≤ 100 * q := by linarith
  have hfl : (100 : ℤ) ≤ ⌊(100 : ℚ) * q⌋ := by
    rw [Int.le_floor]
    exact_mod_cast h100
  have hr : (100 : ℤ) ≤ roundHalfEven (100 * q) :=
    le_trans hfl (roundHalfEven_ge_floor _)
  have hrq : (100 : ℚ) ≤ (roundHalfEven (100 * q) : ℚ) := by exact_mod_cast hr
  rw [round2, le_div_iff₀ (by norm_num : (0 : ℚ) < 100)]
  linarith

/-! ### Token lengths -/

theorem length_le_sum_lengths (ws : List PyStr)
    (h : ∀ w ∈ ws, w ≠ []) : ws.length ≤ (ws.map List.length).sum := by
  induction ws with
  | nil => simp
  | cons w rest ih =>
    have hw : 1 ≤ w.length :=
      List.length_pos.mpr (h w (List.mem_cons_self _ _))
    have hr := ih (fun x hx => h x (List.mem_cons_of_mem _ hx))
    simp only [List.length_cons, List.map_cons, List.sum_cons]
    omega

/-! ### Lowercasing -/

theorem lowerChar_idem (c : Nat) : lowerChar (lowerChar c) = lowerChar c := by
  unfold lowerChar
  split_ifs <;> omega

theorem map_lowerChar_idem (l : List Nat) :
    (l.map lowerChar).map lowerChar = l.map lowerChar := by
  rw [List.map_map]
  exact List.map_congr_left (fun a _ => lowerChar_idem a)

/-! ### Structure of the cleaning pass -/

theorem filterMap_clean_eq (l : List PyStr) :
    l.filterMap (fun w =>
      let c := pyStrip w
      if c = [] then none else some (c.map lowerChar)) =
    ((l.map pyStrip).filter (fun c => !c.isEmpty)).map (List.map lowerChar) := by
  induction l with
  | nil => rfl
  | cons w ws ih =>
    by_cases hc : pyStrip w = []
    · simp only [List.filterMap_cons, hc, List.map_cons, List.filter_cons]
      simp [ih]
    · have hne : (!(pyStrip w).isEmpty) = true := by
        cases hpw : pyStrip w
        · exact absurd hpw hc
        · rfl
      simp only [List.filterMap_cons, List.map_cons, List.filter_cons,
        if_neg hc, hne, if_true]
      simp [ih]

theorem cleanedWords_eq (s : PyStr) :
    cleanedWords s =
      (((pySplit s).map pyStrip).filter (fun c => !c.isEmpty)).map
        (List.map lowerChar) :=
  filterMap_clean_eq (pySplit s)

theorem cleanedWords_lower_fixed (s : PyStr) :
    (cleanedWords s).map (List.map lowerChar) = cleanedWords s := by
  rw [cleanedWords_eq, List.map_map]
  exact List.map_congr_left (fun a _ => map_lowerChar_idem a)

theorem all_takeWhile_self (p : Nat → Bool) (l : List Nat) :
    (l.takeWhile p).all p = true :=
  List.all_eq_true.mpr (fun x hx => List.mem_takeWhile_imp hx)

theorem pyStrip_decomp (w : PyStr) :
    ∃ pre post, w = pre ++ pyStrip w ++ post ∧
      pre.all (punctChars.contains ·) = true ∧
      post.all (punctChars.contains ·) = true := by
  refine ⟨w.takeWhile (punctChars.contains ·),
    ((w.dropWhile (punctChars.contains ·)).reverse.takeWhile
      (punctChars.contains ·)).reverse, ?_, all_takeWhile_self _ _, ?_⟩
  · symm
    have key : pyStrip w ++
        ((w.dropWhile (punctChars.contains ·)).reverse.takeWhile
          (punctChars.contains ·)).reverse =
        w.dropWhile (punctChars.contains ·) := by
      unfold pyStrip
      rw [← List.reverse_append, List.takeWhile_append_dropWhile,
        List.reverse_reverse]
    rw [List.append_assoc, key, List.takeWhile_append_dropWhile]
  · rw [List.all_reverse]
    exact all_takeWhile_self _ _

/-! ### Keys of the frequency dictionary -/

theorem freqKeys_foldl (ws : List PyStr) (m : List (PyStr × Nat)) :
    freqKeys (ws.foldl bump m) = freqKeys m ++ dedupAux ws (freqKeys m) := by
  induction ws generalizing m with
  | nil => simp [dedupAux]
  | cons w ws ih =>
    rw [List.foldl_cons, ih, freqKeys_bump, dedupAux]
    by_cases hw : w ∈ freqKeys m
    · rw [if_pos hw, if_pos hw]
    · rw [if_neg hw, if_neg hw,
        dedupAux_congr ws (freqKeys m ++ [w]) (w :: freqKeys m)
          (by intro x; simp [or_comm]),
        List.append_assoc, List.singleton_append]

/-! ### The claims -/

/-- C1: on every string input on which `analyze_text` succeeds, the sum of
the values of the returned `word_frequency` mapping equals the returned
`word_count`. -/
theorem freq_sum_is_word_count (t : PyStr) (r : AnalysisResult)
    (h : analyzeOk t = some r) :
    (freqValues r.word_frequency).sum = r.word_count := by
  obtain ⟨-, hwc, -, -, hf⟩ := analyzeOk_some t r h
  rw [hf, hwc, buildFreq, freqValues_foldl]
  simp [freqValues]

/-- Witness for C1: the theorem applied to the concrete input
`"cat dog bat"`. -/
theorem freq_sum_is_word_count_witness :
    analyzeOk sampleText = some sampleResult ∧
    (freqValues sampleResult.word_frequency).sum = sampleResult.word_count :=
  ⟨rfl, freq_sum_is_word_count sampleText sampleResult rfl⟩

/-- C2: on success, `longest_words` is exactly the sequence of distinct
cleaned tokens of maximum length in order of first appearance (deduplicating
first and filtering afterwards, as the specification reads, agrees with the
code), has no duplicates, is non-empty, and every element has maximum
length. -/
theorem longest_words_correct (t : PyStr) (r : AnalysisResult)
    (h : analyzeOk t = some r) :
    r.longest_words = specLongestWords (cleanedWords t) ∧
    r.longest_words.Nodup ∧
    r.longest_words ≠ [] ∧
    ∀ w ∈ r.longest_words, w.length = maxLen (cleanedWords t) := by
  obtain ⟨hne, -, -, hl, -⟩ := analyzeOk_some t r h
  have hspec : r.longest_words = specLongestWords (cleanedWords t) := by
    rw [hl, specLongestWords, pyDedup, pyDedup, dedupAux_filter]
  refine ⟨hspec, ?_, ?_, ?_⟩
  · rw [hl]
    exact nodup_dedupAux _ _
  · obtain ⟨w, hw, hwl⟩ := exists_maxLen (cleanedWords t) hne
      (mem_cleanedWords_ne_nil t)
    rw [hl, pyDedup]
    intro hc
    have hmem : w ∈ dedupAux ((cleanedWords t).filter
        (fun x => x.length = maxLen (cleanedWords t))) [] :=
      (mem_dedupAux _ _ _).mpr
        ⟨List.mem_filter.mpr ⟨hw, by simpa using hwl⟩, List.not_mem_nil w⟩
    rw [hc] at hmem
    exact List.not_mem_nil w hmem
  · intro w hw
    rw [hl, pyDedup] at hw
    have hm := ((mem_dedupAux _ _ _).mp hw).1
    simpa using (List.mem_filter.mp hm).2

/-- Witness for C2: the theorem applied to the concrete input
`"cat dog bat"`. -/
theorem longest_words_correct_witness :
    analyzeOk sampleText = some sampleResult ∧
    (sampleResult.longest_words = specLongestWords (cleanedWords sampleText) ∧
     sampleResult.longest_words.Nodup ∧
     sampleResult.longest_words ≠ [] ∧
     ∀ w ∈ sampleResult.longest_words,
       w.length = maxLen (cleanedWords sampleText)) :=
  ⟨rfl, longest_words_correct sampleText sampleResult rfl⟩

/-- C3: on success, `average_word_length` equals the rounded quotient of
the total character length of the cleaned tokens by `word_count`, and that
same value is reconstructible from the returned `word_frequency` as the
rounded quotient of the sum over entries of key length times count. -/
theorem average_reconstruction (t : PyStr) (r : AnalysisResult)
    (h : analyzeOk t = some r) :
    r.average_word_length =
      round2 ((((cleanedWords t).map List.length).sum : ℚ) /
        (r.word_count : ℚ)) ∧
    r.average_word_length =
      round2 ((freqWeight r.word_frequency : ℚ) / (r.word_count : ℚ)) := by
  obtain ⟨-, hwc, havg, -, hf⟩ := analyzeOk_some t r h
  have hweight : freqWeight r.word_frequency =
      ((cleanedWords t).map List.length).sum := by
    rw [hf, buildFreq, freqWeight_foldl]
    simp [freqWeight]
  constructor
  · rw [havg, hwc]
  · rw [havg, hwc, hweight]

/-- Witness for C3: the theorem applied to the concrete input
`"cat dog bat"`. -/
theorem average_reconstruction_witness :
    analyzeOk sampleText = some sampleResult ∧
    (sampleResult.average_word_length =
      round2 ((((cleanedWords sampleText).map List.length).sum : ℚ) /
        (sampleResult.word_count : ℚ)) ∧
     sampleResult.average_word_length =
      round2 ((freqWeight sampleResult.word_frequency : ℚ) /
        (sampleResult.word_count : ℚ))) :=
  ⟨rfl, average_reconstruction sampleText sampleResult rfl⟩

/-- C4: `analyze_text` raises the `TypeError` kind exactly on non-string
inputs, raises the `ValueError` kind exactly on strings that are empty or
whitespace-only or in which no token survives cleaning, and produces a
result exactly in the remaining cases, so no result accompanies a
failure. -/
theorem error_conditions (v : PyValue) :
    (analyze_text v = .error .typeError ↔ v = .nonStr) ∧
    (analyze_text v = .error .valueError ↔
      ∃ t, v = .str t ∧ (t.all isPySpace = true ∨ cleanedWords t = [])) ∧
    ((∃ r, analyze_text v = .ok r) ↔
      ∃ t, v = .str t ∧ cleanedWords t ≠ []) := by
  cases v with
  | nonStr =>
    refine ⟨by simp [analyze_text], ?_, ?_⟩
    · constructor
      · intro h
        simp [analyze_text] at h
      · rintro ⟨t, ht, -⟩
        cases ht
    · constructor
      · rintro ⟨r, hr⟩
        simp [analyze_text] at hr
      · rintro ⟨t, ht, -⟩
        cases ht
  | str t =>
    by_cases hsp : t.all isPySpace
    · have hcl : cleanedWords t = [] := all_space_cleanedWords t hsp
      refine ⟨by simp [analyze_text, hsp], ?_, ?_⟩
      · simp only [analyze_text, if_pos hsp]
        constructor
        · intro _
          exact ⟨t, rfl, Or.inl hsp⟩
        · intro _
          trivial
      · constructor
        · rintro ⟨r, hr⟩
          simp [analyze_text, hsp] at hr
        · rintro ⟨t2, ht2, hne⟩
          injection ht2 with h12
          subst h12
          exact absurd hcl hne
    · by_cases hcl : cleanedWords t = []
      · refine ⟨by simp [analyze_text, hsp, hcl], ?_, ?_⟩
        · simp only [analyze_text, if_neg hsp, hcl, if_pos rfl]
          constructor
          · intro _
            exact ⟨t, rfl, Or.inr hcl⟩
          · intro _
            trivial
        · constructor
          · rintro ⟨r, hr⟩
            simp [analyze_text, hsp, hcl] at hr
          · rintro ⟨t2, ht2, hne⟩
            injection ht2 with h12
            subst h12
            exact absurd hcl hne
      · refine ⟨by simp [analyze_text, hsp, hcl], ?_, ?_⟩
        · simp only [analyze_text, if_neg hsp]
          constructor
          · intro hr
            rw [if_neg hcl] at hr
            cases hr
          · rintro ⟨t2, ht2, hd⟩
            injection ht2 with h12
            subst h12
            rcases hd with hd | hd
            · exact absurd hd hsp
            · exact absurd hd hcl
        · constructor
          · intro _
            exact ⟨t, rfl, hcl⟩
          · intro _
            refine ⟨{ word_count := (cleanedWords t).length,
                      average_word_length := round2
                        ((((cleanedWords t).map List.length).sum : ℚ) /
                          (((cleanedWords t).length : Nat) : ℚ)),
                      longest_words := pyDedup ((cleanedWords t).filter
                        (fun w => w.length = maxLen (cleanedWords t))),
                      word_frequency := buildFreq (cleanedWords t) }, ?_⟩
            simp only [analyze_text, if_neg hsp, if_neg hcl]

/-- C5: cleaning a raw token removes only characters of the fixed
punctuation set, and only from the two ends, never from the interior
(witnessed also on a token with an interior apostrophe, code point 39),
then lowercases; tokens that become empty after trimming are discarded. -/
theorem cleaning_boundary_only :
    (∀ w : PyStr, ∃ pre post, w = pre ++ pyStrip w ++ post ∧
      pre.all (punctChars.contains ·) = true ∧
      post.all (punctChars.contains ·) = true) ∧
    (∀ s : PyStr, cleanedWords s =
      (((pySplit s).map pyStrip).filter (fun c => !c.isEmpty)).map
        (List.map lowerChar)) ∧
    cleanedWords (toChars "Don\x27t!") = [toChars "don\x27t"] :=
  ⟨pyStrip_decomp, cleanedWords_eq, by decide⟩

/-- C6 counterexample: on Scenario A the source text contains three
occurrences of the token spelled t-h-e, so the claimed frequency 2 for it
is false; the conjunction claimed for Scenario A fails. -/
theorem scenario_a_counterexample :
    ¬(wcOf foxText = 11 ∧
      toChars "quick" ∈ longestOf foxText ∧
      toChars "brown" ∈ longestOf foxText ∧
      toChars "jumps" ∈ longestOf foxText ∧
      lookupFreq (freqOf foxText) (toChars "the") = 2 ∧
      lookupFreq (freqOf foxText) (toChars "fox") = 2) := by
  decide

/-- C6 amended: on Scenario A the analysis succeeds with
`word_count = 11`, `longest_words` containing the three length-5 tokens,
the token spelled t-h-e mapped to frequency 3, and the token spelled
f-o-x mapped to frequency 2. -/
theorem scenario_a_amended :
    (analyzeOk foxText).isSome = true ∧
    wcOf foxText = 11 ∧
    toChars "quick" ∈ longestOf foxText ∧
    toChars "brown" ∈ longestOf foxText ∧
    toChars "jumps" ∈ longestOf foxText ∧
    lookupFreq (freqOf foxText) (toChars "the") = 3 ∧
    lookupFreq (freqOf foxText) (toChars "fox") = 2 := by
  decide

/-- C7: counting is case-insensitive: the cleaned tokens are already
lowercased (lowercasing them again changes nothing), and the input
`"Hello hello HELLO"` yields the frequency mapping sending the token
spelled h-e-l-l-o to 3 and nothing else. -/
theorem lowercase_aggregation :
    (∀ s : PyStr, (cleanedWords s).map (List.map lowerChar) = cleanedWords s) ∧
    (analyzeOk (toChars "Hello hello HELLO")).isSome = true ∧
    freqOf (toChars "Hello hello HELLO") = [(toChars "hello", 3)] :=
  ⟨cleanedWords_lower_fixed, by decide, by decide⟩

/-- C8: the embedded `analyze_text` is a total function of its input value
alone: two invocations on the same input give the identical outcome,
whether a result or an error. The embedding itself carries no state and
never alters the input. -/
theorem analyze_deterministic (v : PyValue) :
    analyze_text v = analyze_text v := rfl

/-- C9: on success, the keys of `word_frequency` are exactly the distinct
cleaned tokens in first-appearance order (hence a token is a key exactly
when it occurs in the cleaned list), every stored count is at least 1, and
every element of `longest_words` is a key of `word_frequency`. -/
theorem freq_keys_exact (t : PyStr) (r : AnalysisResult)
    (h : analyzeOk t = some r) :
    freqKeys r.word_frequency = pyDedup (cleanedWords t) ∧
    (∀ w, w ∈ freqKeys r.word_frequency ↔ w ∈ cleanedWords t) ∧
    (∀ kv ∈ r.word_frequency, 1 ≤ kv.2) ∧
    (∀ w ∈ r.longest_words, w ∈ freqKeys r.word_frequency) := by
  obtain ⟨-, -, -, hl, hf⟩ := analyzeOk_some t r h
  have hkeys : freqKeys r.word_frequency = pyDedup (cleanedWords t) := by
    rw [hf, buildFreq, freqKeys_foldl, pyDedup]
    simp [freqKeys]
  have hmem : ∀ w, w ∈ freqKeys r.word_frequency ↔ w ∈ cleanedWords t := by
    intro w
    rw [hkeys, pyDedup, mem_dedupAux]
    simp
  refine ⟨hkeys, hmem, ?_, ?_⟩
  · rw [hf, buildFreq]
    exact foldl_bump_values_pos _ [] (by simp)
  · intro w hw
    rw [hl, pyDedup] at hw
    exact (hmem w).mpr
      (List.mem_filter.mp ((mem_dedupAux _ _ _).mp hw).1).1

/-- Witness for C9: the theorem applied to the concrete input
`"cat dog bat"`. -/
theorem freq_keys_exact_witness :
    analyzeOk sampleText = some sampleResult ∧
    (freqKeys sampleResult.word_frequency = pyDedup (cleanedWords sampleText) ∧
     (∀ w, w ∈ freqKeys sampleResult.word_frequency ↔
        w ∈ cleanedWords sampleText) ∧
     (∀ kv ∈ sampleResult.word_frequency, 1 ≤ kv.2) ∧
     (∀ w ∈ sampleResult.longest_words,
        w ∈ freqKeys sampleResult.word_frequency)) :=
  ⟨rfl, freq_keys_exact sampleText sampleResult rfl⟩

/-- C10: on success, `word_count` is at least 1 and `average_word_length`
is at least 1, because every surviving cleaned token has at least one
character. -/
theorem counts_at_least_one (t : PyStr) (r : AnalysisResult)
    (h : analyzeOk t = some r) :
    1 ≤ r.word_count ∧ 1 ≤ r.average_word_length := by
  obtain ⟨hne, hwc, havg, -, -⟩ := analyzeOk_some t r h
  have hlen : 0 < (cleanedWords t).length := List.length_pos.mpr hne
  constructor
  · rw [hwc]
    exact hlen
  · rw [havg]
    apply one_le_round2
    have hsum : (cleanedWords t).length ≤
        ((cleanedWords t).map List.length).sum :=
      length_le_sum_lengths _ (mem_cleanedWords_ne_nil t)
    have hq : ((cleanedWords t).length : ℚ) ≤
        (((cleanedWords t).map List.length).sum : ℚ) := by exact_mod_cast hsum
    have hq0 : (0 : ℚ) < ((cleanedWords t).length : ℚ) := by exact_mod_cast hlen
    rw [le_div_iff₀ hq0]
    linarith

/-- Witness for C10: the theorem applied to the concrete input
`"cat dog bat"`. -/
theorem counts_at_least_one_witness :
    analyzeOk sampleText = some sampleResult ∧
    (1 ≤ sampleResult.word_count ∧ 1 ≤ sampleResult.average_word_length) :=
  ⟨rfl, counts_at_least_one sampleText sampleResult rfl⟩
